import Mathlib

/-!
Shallow embedding of the mongo-migrator repository (Devoter/mongo-migrator).

The persisted collection is modelled as a list of records in insertion order;
the driver's sorted queries are modelled by an insertion sort on the version
key. Migration apply/revert bodies are modelled by boolean success flags
(`upOk` / `downOk`); execution of a body is recorded in a log. The driver's
"no documents" answer for an absent-or-empty collection follows the adapter
contract of the spec (section 6): absence or emptiness is reported as an
error, which the commands translate to the not-initialized error.
-/

namespace MongoMigrator

/-- A persisted record: the subset of a migration that survives storage
(`version` and `name` bson fields of `migration.Migration`). -/
structure Rec where
  version : Int
  name : String
deriving Repr, DecidableEq

/-- A migration value as in `migration/migration.go`: version, name, the two
operation bodies (modelled by their success flags `upOk` / `downOk`) and the
transient `stored` flag. -/
structure Migration where
  version : Int
  name : String
  upOk : Bool
  downOk : Bool
  stored : Bool
deriving Repr, DecidableEq

/-- Errors of `errors.go` that the embedded commands can surface, plus
`bodyFailed` for an error returned by a migration's own apply/revert body. -/
inductive Err where
  | notInit
  | absent
  | targetNotFound
  | bodyFailed
deriving Repr, DecidableEq

/-- An executed operation: invocation of a migration's apply (`up`) or
revert (`down`) body. -/
inductive Op where
  | up (version : Int)
  | down (version : Int)
deriving Repr, DecidableEq

/-- Projection of a migration to its persisted record (what `InsertOne`
writes: only the bson-tagged fields). -/
def toRec (m : Migration) : Rec :=
  ⟨m.version, m.name⟩

/-- Reading a record back (`cursor.Decode` followed by `mig.Stored = true`):
the operations of a decoded migration are never invoked by the code, so their
flags are irrelevant and set to `true`. -/
def decodeRec (r : Rec) : Migration :=
  ⟨r.version, r.name, true, true, true⟩

/-- The synthetic zero migration appended by `NewMigrator`.
Modelled from the spec: `migration.DummyUpDown`, the body of both of its
operations, is not among the given source files; the spec states both
operations are no-ops that succeed, hence `upOk = downOk = true`. -/
def zeroMigration : Migration :=
  ⟨0, "-", true, true, false⟩

/-- Marks a migration as reconstructed from storage. -/
def markStored (m : Migration) : Migration :=
  { m with stored := true }

/-- The comparison of `migration.CompareMigrations`, weakened to the
non-strict order a sort produces. -/
def migLE (a b : Migration) : Prop :=
  a.version ≤ b.version

instance : DecidableRel migLE :=
  fun a b => inferInstanceAs (Decidable (a.version ≤ b.version))

instance : IsTotal Migration migLE :=
  ⟨fun a b => Int.le_total a.version b.version⟩

instance : IsTrans Migration migLE :=
  ⟨fun _ _ _ h1 h2 => le_trans h1 h2⟩

/-- The record order used by the driver's `{version: 1}` sort option. -/
def recLE (a b : Rec) : Prop :=
  a.version ≤ b.version

instance : DecidableRel recLE :=
  fun a b => inferInstanceAs (Decidable (a.version ≤ b.version))

instance : IsTotal Rec recLE :=
  ⟨fun a b => Int.le_total a.version b.version⟩

instance : IsTrans Rec recLE :=
  ⟨fun _ _ _ h1 h2 => le_trans h1 h2⟩

/-- The version sort applied to the known set (`sort.Sort` in `NewMigrator`). -/
def sortMigs (l : List Migration) : List Migration :=
  List.insertionSort migLE l

/-- The version sort the driver applies to a find over the collection. -/
def sortRecs (l : List Rec) : List Rec :=
  List.insertionSort recLE l

/-- The normalized known set built by `NewMigrator`: caller list with the
zero migration appended, sorted ascending by version. -/
def newMigratorMigrations (ms : List Migration) : List Migration :=
  sortMigs (ms ++ [zeroMigration])

/-- History read of `Up`/`Reset`: find sorted ascending, decode each record
and flag it stored. -/
def findAsc (db : List Rec) : List Migration :=
  (sortRecs db).map decodeRec

/-- Version of the last element of a history (`history[length-1].Version`),
`0` for an empty history. -/
def lastVersion (l : List Migration) : Int :=
  ((l.getLast?).map (fun m => m.version)).getD 0

/-- Current version as `FindOne` with a `{version: -1}` sort sees it: the
highest version among the records. -/
def maxVersion (db : List Rec) : Int :=
  (((sortRecs db).getLast?).map (fun r => r.version)).getD 0

/-- `DeleteOne` with a version filter: removes the first record carrying the
version. -/
def deleteVersion : List Rec → Int → List Rec
  | [], _ => []
  | r :: rest, v => if r.version = v then rest else r :: deleteVersion rest v

/-- The upper bound `max` computed at the head of `mergeMigrations`:
`actual`'s last version plus one when no target was given (`target == -1`),
otherwise `target + 1`; left at its zero value when `actual` is empty. -/
def maxBound (actual : List Migration) (target : Int) : Int :=
  match actual.getLast? with
  | none => 0
  | some lastm => if target = -1 then lastm.version + 1 else target + 1

/-- The merge loop of `mergeMigrations` (migrator.go lines 358-380), indices
`i` over `applied` and `j` over `actual`, with the source's comparison
`actual[j].Less(&applied[j])` kept as written: the second operand is indexed
with `j`, and an out-of-range index (a Go panic) yields `none`. The two
trailing loops append the rest of `applied` and the bounded rest of
`actual`. The fuel argument strictly exceeds the possible number of
iterations, so it never runs out. -/
def mergeLoop (applied actual : List Migration) (mx : Int) :
    Nat → Nat → Nat → Option (List Migration)
  | 0, _, _ => none
  | fuel + 1, i, j =>
    match applied[i]?, actual[j]? with
    | some a, some b =>
      if b.version < mx then
        if a.version < b.version then
          (mergeLoop applied actual mx fuel (i + 1) j).map (fun l => a :: l)
        else
          match applied[j]? with
          | none => none
          | some aj =>
            if b.version < aj.version then
              (mergeLoop applied actual mx fuel i (j + 1)).map (fun l => b :: l)
            else
              (mergeLoop applied actual mx fuel (i + 1) (j + 1)).map (fun l => a :: l)
      else
        some (applied.drop i ++ (actual.drop j).takeWhile (fun mg => decide (mg.version < mx)))
    | _, _ =>
      some (applied.drop i ++ (actual.drop j).takeWhile (fun mg => decide (mg.version < mx)))

/-- `mergeMigrations` of migrator.go: merge of the applied history and the
known set below the bound. `none` models the out-of-range panic. -/
def mergeMigrations (applied actual : List Migration) (target : Int) :
    Option (List Migration) :=
  mergeLoop applied actual (maxBound actual target)
    (applied.length + actual.length + 1) 0 0

/-- `correlateMigrations` of migrator.go: replaces every applied record with
the known migration of the same version, stopping with the absent error (and
the orphaned record appended) at the first applied version the known set
skips past; an applied record left when the known set is exhausted is the
same absence error. -/
def correlateMigrations : List Migration → List Migration → List Migration × Option Err
  | [], _ => ([], none)
  | a :: _, [] => ([a], some Err.absent)
  | a :: as, b :: bs =>
    if a.version < b.version then
      ([a], some Err.absent)
    else if b.version < a.version then
      correlateMigrations (a :: as) bs
    else
      let r := correlateMigrations as bs
      (b :: r.1, r.2)

/-- Outcome of a command loop: final `newVersion`, error, collection state
and the log of invoked migration bodies. -/
structure LoopRes where
  newv : Int
  err : Option Err
  db : List Rec
  log : List Op
deriving Repr, DecidableEq

/-- Result triple of a command, together with the final collection state and
the log of invoked migration bodies. -/
structure CmdRes where
  old : Int
  newv : Int
  err : Option Err
  db : List Rec
  log : List Op
deriving Repr, DecidableEq

/-- The apply loop of `Up` (migrator.go lines 129-143): each non-stored item
sets `newVersion` to its version before its apply body runs; a body error
aborts; on success the record is inserted and the loop continues. -/
def upLoop : List Migration → List Rec → Int → LoopRes
  | [], db, nv => ⟨nv, none, db, []⟩
  | m :: rest, db, nv =>
    if m.stored then
      upLoop rest db nv
    else if m.upOk then
      let r := upLoop rest (db ++ [toRec m]) m.version
      ⟨r.newv, r.err, r.db, Op.up m.version :: r.log⟩
    else
      ⟨m.version, some Err.bodyFailed, db, [Op.up m.version]⟩

/-- `Up` of migrator.go: read the history (absent or empty storage is the
not-initialized error), merge with the known set, run the apply loop.
`none` propagates the merge panic. -/
def Up (migs : List Migration) (db : List Rec) (target : Int) : Option CmdRes :=
  if db.isEmpty then
    some ⟨0, 0, some Err.notInit, db, []⟩
  else
    let history := findAsc db
    let v := lastVersion history
    match mergeMigrations history migs target with
    | none => none
    | some merged =>
      let r := upLoop merged db v
      some ⟨v, r.newv, r.err, r.db, r.log⟩

/-- The descending scan of `Down` (migrator.go lines 170-187) over the known
set, `n = i + 1`: finds the highest-index known migration whose version
equals the current version, together with its predecessor (`none` when it
sits at index 0). -/
def downLoop (migs : List Migration) (v : Int) : Nat → Option (Migration × Option Migration)
  | 0 => none
  | n + 1 =>
    match migs[n]? with
    | none => downLoop migs v n
    | some mig =>
      if mig.version = v then
        if n = 0 then some (mig, none) else some (mig, migs[n - 1]?.getD mig)
      else
        downLoop migs v n

/-- `Down` of migrator.go: revert the currently-applied migration located in
the known set; a no-op when it is the first known migration or when its
version is unknown. `newVersion` is set to the predecessor's version before
the revert body runs. -/
def Down (migs : List Migration) (db : List Rec) : CmdRes :=
  if db.isEmpty then
    ⟨0, 0, some Err.notInit, db, []⟩
  else
    let old := maxVersion db
    match downLoop migs old migs.length with
    | none => ⟨old, old, none, db, []⟩
    | some (_, none) => ⟨old, old, none, db, []⟩
    | some (mig, some pred) =>
      if mig.downOk then
        ⟨old, pred.version, none, deleteVersion db mig.version, [Op.down mig.version]⟩
      else
        ⟨old, pred.version, some Err.bodyFailed, db, [Op.down mig.version]⟩

/-- The descending revert loop of `Reset` (migrator.go lines 234-255), taking
the reversed correlated list: `newVersion` is set to the next-lower
correlated version (or the item's own version at the bottom) before the
revert body runs; a body error aborts; a record of positive version is
deleted after its revert. -/
def resetRevGo : List Migration → List Rec → Int → LoopRes
  | [], db, nv => ⟨nv, none, db, []⟩
  | m :: rest, db, _ =>
    let nv := ((rest.head?).map (fun p => p.version)).getD m.version
    if m.downOk then
      let db' := if 0 < m.version then deleteVersion db m.version else db
      let r := resetRevGo rest db' nv
      ⟨r.newv, r.err, r.db, Op.down m.version :: r.log⟩
    else
      ⟨nv, some Err.bodyFailed, db, [Op.down m.version]⟩

/-- `Reset` of migrator.go: read the history, correlate it with the known
set (a correlation error is returned with versions untouched), then revert
everything from the top down. -/
def Reset (migs : List Migration) (db : List Rec) : CmdRes :=
  if db.isEmpty then
    ⟨0, 0, some Err.notInit, db, []⟩
  else
    let history := findAsc db
    let v := lastVersion history
    let p := correlateMigrations history migs
    match p.2 with
    | some e => ⟨v, v, some e, db, []⟩
    | none =>
      let r := resetRevGo p.1.reverse db v
      ⟨v, r.newv, r.err, r.db, r.log⟩

/-- `Version` of migrator.go: reads the current (maximum) version. -/
def VersionCmd (db : List Rec) : CmdRes :=
  if db.isEmpty then
    ⟨0, 0, some Err.notInit, db, []⟩
  else
    let v := maxVersion db
    ⟨v, v, none, db, []⟩

/-- The accumulation scan of `SetVersion` (migrator.go lines 289-298): the
known migrations up to and including the first one whose version equals the
target, and that found migration. -/
def takeToTarget : List Migration → Int → List Migration × Option Migration
  | [], _ => ([], none)
  | m :: rest, t =>
    if m.version = t then
      ([m], some m)
    else
      let r := takeToTarget rest t
      (m :: r.1, r.2)

/-- `SetVersion` of migrator.go: forces the version by dropping the
collection and re-inserting the known records up to the target, executing no
migration body; an unknown target is an error, a target equal to the current
version changes nothing. -/
def SetVersion (migs : List Migration) (db : List Rec) (target : Int) : CmdRes :=
  if db.isEmpty then
    ⟨0, 0, some Err.notInit, db, []⟩
  else
    let old := maxVersion db
    let t := takeToTarget migs target
    match t.2 with
    | none => ⟨old, 0, some Err.targetNotFound, db, []⟩
    | some found =>
      if old = found.version then
        ⟨old, old, none, db, []⟩
      else
        ⟨old, lastVersion t.1, none, t.1.map toRec, []⟩

/-- A decoded copy of a migration as `Up`/`Reset` would read it back right
after it was inserted: same version and name, stored. -/
def reify (m : Migration) : Migration :=
  ⟨m.version, m.name, true, true, true⟩

/-- The versions of a list of migrations. -/
def versionsOf (l : List Migration) : List Int :=
  l.map (fun m => m.version)

/-- Strict ascent by version, the shape of a normalized known set and of a
persisted history with unique versions. -/
def versionAsc (l : List Migration) : Prop :=
  List.Pairwise (fun a b => a.version < b.version) l

instance : DecidablePred versionAsc :=
  fun l => inferInstanceAs (Decidable (List.Pairwise _ l))

/-- One step of the record deletion performed by the `Reset` loop. -/
def stepDel (db : List Rec) (m : Migration) : List Rec :=
  if 0 < m.version then deleteVersion db m.version else db

/-- The record deletions performed by the `Reset` loop over a list of
migrations, in list order. -/
def foldDel (l : List Migration) (db : List Rec) : List Rec :=
  l.foldl stepDel db

/-! Helper lemmas. -/

theorem mapGetLast {α β : Type} (f : α → β) :
    ∀ l : List α, (l.map f).getLast? = (l.getLast?).map f
  | [] => rfl
  | [_] => rfl
  | a :: b :: t => by
    rw [List.map_cons, List.map_cons, List.getLast?_cons_cons, ← List.map_cons,
      mapGetLast f (b :: t), List.getLast?_cons_cons]

theorem mem_versionsOf_cons {v : Int} {b : Migration} {bs : List Migration} :
    v ∈ versionsOf (b :: bs) ↔ v = b.version ∨ v ∈ versionsOf bs := by
  simp [versionsOf]

theorem versionsOf_lower {b : Migration} {bs : List Migration}
    (hb : versionAsc (b :: bs)) :
    ∀ v ∈ versionsOf (b :: bs), b.version ≤ v := by
  intro v hv
  rcases mem_versionsOf_cons.mp hv with h | h
  · omega
  · rcases List.mem_map.mp h with ⟨m, hm, hmv⟩
    have := (List.pairwise_cons.mp hb).1 m hm
    omega

theorem versionAsc_cons_elim {a : Migration} {l : List Migration}
    (h : versionAsc (a :: l)) :
    (∀ x ∈ l, a.version < x.version) ∧ versionAsc l :=
  List.pairwise_cons.mp h

/-! Lemmas about `correlateMigrations`. -/

theorem correlate_covered_of_none :
    ∀ (actual applied : List Migration),
      (correlateMigrations applied actual).2 = none →
      ∀ a ∈ applied, a.version ∈ versionsOf actual := by
  intro actual
  induction actual with
  | nil =>
    intro applied h a ha
    cases applied with
    | nil => cases ha
    | cons x xs => simp [correlateMigrations] at h
  | cons b bs ih =>
    intro applied h a ha
    cases applied with
    | nil => cases ha
    | cons x xs =>
      by_cases h1 : x.version < b.version
      · simp [correlateMigrations, h1] at h
      · by_cases h2 : b.version < x.version
        · have h' : (correlateMigrations (x :: xs) bs).2 = none := by
            simpa [correlateMigrations, h1, h2] using h
          exact mem_versionsOf_cons.mpr (Or.inr (ih (x :: xs) h' a ha))
        · have hv : x.version = b.version := by omega
          have h' : (correlateMigrations xs bs).2 = none := by
            simpa [correlateMigrations, h1, h2] using h
          rcases List.mem_cons.mp ha with rfl | hmem
          · exact mem_versionsOf_cons.mpr (Or.inl hv)
          · exact mem_versionsOf_cons.mpr (Or.inr (ih xs h' a hmem))

theorem correlate_none_of_covered :
    ∀ (actual applied : List Migration),
      versionAsc applied → versionAsc actual →
      (∀ a ∈ applied, a.version ∈ versionsOf actual) →
      (correlateMigrations applied actual).2 = none := by
  intro actual
  induction actual with
  | nil =>
    intro applied _ _ hcov
    cases applied with
    | nil => rfl
    | cons x xs =>
      have := hcov x (List.mem_cons_self x xs)
      simp [versionsOf] at this
  | cons b bs ih =>
    intro applied ha hb hcov
    cases applied with
    | nil => rfl
    | cons x xs =>
      by_cases h1 : x.version < b.version
      · exfalso
        have hx := hcov x (List.mem_cons_self x xs)
        have := versionsOf_lower hb x.version hx
        omega
      · by_cases h2 : b.version < x.version
        · have hcov' : ∀ a ∈ x :: xs, a.version ∈ versionsOf bs := by
            intro a hmem
            have hin := hcov a hmem
            rcases mem_versionsOf_cons.mp hin with hv | hv
            · exfalso
              rcases List.mem_cons.mp hmem with rfl | hmem'
              · omega
              · have := (versionAsc_cons_elim ha).1 a hmem'
                omega
            · exact hv
          have := ih (x :: xs) ha (versionAsc_cons_elim hb).2 hcov'
          simpa [correlateMigrations, h1, h2] using this
        · have hv : x.version = b.version := by omega
          have hcov' : ∀ a ∈ xs, a.version ∈ versionsOf bs := by
            intro a hmem
            have hin := hcov a (List.mem_cons_of_mem x hmem)
            rcases mem_versionsOf_cons.mp hin with hveq | hveq
            · exfalso
              have := (versionAsc_cons_elim ha).1 a hmem
              omega
            · exact hveq
          have := ih xs (versionAsc_cons_elim ha).2 (versionAsc_cons_elim hb).2 hcov'
          simpa [correlateMigrations, h1, h2] using this

theorem correlate_success_shape :
    ∀ (actual applied : List Migration),
      (correlateMigrations applied actual).2 = none →
      versionsOf (correlateMigrations applied actual).1 = versionsOf applied ∧
      ∀ c ∈ (correlateMigrations applied actual).1, c ∈ actual := by
  intro actual
  induction actual with
  | nil =>
    intro applied h
    cases applied with
    | nil => exact ⟨rfl, by intro c hc; simp [correlateMigrations] at hc⟩
    | cons x xs => simp [correlateMigrations] at h
  | cons b bs ih =>
    intro applied h
    cases applied with
    | nil =>
      exact ⟨rfl, by intro c hc; simp [correlateMigrations] at hc⟩
    | cons x xs =>
      by_cases h1 : x.version < b.version
      · simp [correlateMigrations, h1] at h
      · by_cases h2 : b.version < x.version
        · have h' : (correlateMigrations (x :: xs) bs).2 = none := by
            simpa [correlateMigrations, h1, h2] using h
          have := ih (x :: xs) h'
          constructor
          · simpa [correlateMigrations, h1, h2] using this.1
          · intro c hc
            have hc' : c ∈ (correlateMigrations (x :: xs) bs).1 := by
              simpa [correlateMigrations, h1, h2] using hc
            exact List.mem_cons_of_mem b (this.2 c hc')
        · have hv : x.version = b.version := by omega
          have h' : (correlateMigrations xs bs).2 = none := by
            simpa [correlateMigrations, h1, h2] using h
          have := ih xs h'
          constructor
          · have hfst : (correlateMigrations (x :: xs) (b :: bs)).1 =
                b :: (correlateMigrations xs bs).1 := by
              simp [correlateMigrations, h1, h2]
            rw [hfst]
            simp only [versionsOf, List.map_cons] at this ⊢
            rw [this.1, hv]
          · intro c hc
            have hc' : c ∈ b :: (correlateMigrations xs bs).1 := by
              simpa [correlateMigrations, h1, h2] using hc
            rcases List.mem_cons.mp hc' with rfl | hmem
            · exact List.mem_cons_self c bs
            · exact List.mem_cons_of_mem b (this.2 c hmem)

theorem correlate_failure_shape :
    ∀ (actual applied : List Migration),
      versionAsc applied → versionAsc actual →
      ∀ e, (correlateMigrations applied actual).2 = some e →
      e = Err.absent ∧
      ∃ a, (correlateMigrations applied actual).1.getLast? = some a ∧
        a ∈ applied ∧ a.version ∉ versionsOf actual ∧
        ∀ a' ∈ applied, a'.version ∉ versionsOf actual → a.version ≤ a'.version := by
  intro actual
  induction actual with
  | nil =>
    intro applied ha _ e he
    cases applied with
    | nil => simp [correlateMigrations] at he
    | cons x xs =>
      have he' : Err.absent = e := by
        simpa [correlateMigrations] using he
      refine ⟨he'.symm, x, by simp [correlateMigrations], List.mem_cons_self x xs, ?_, ?_⟩
      · simp [versionsOf]
      · intro a' ha' _
        rcases List.mem_cons.mp ha' with rfl | hmem
        · omega
        · have := (versionAsc_cons_elim ha).1 a' hmem
          omega
  | cons b bs ih =>
    intro applied ha hb e he
    cases applied with
    | nil => simp [correlateMigrations] at he
    | cons x xs =>
      by_cases h1 : x.version < b.version
      · have he' : Err.absent = e := by
          simpa [correlateMigrations, h1] using he
        refine ⟨he'.symm, x, by simp [correlateMigrations, h1],
          List.mem_cons_self x xs, ?_, ?_⟩
        · intro hmem
          have := versionsOf_lower hb x.version hmem
          omega
        · intro a' ha' _
          rcases List.mem_cons.mp ha' with rfl | hmem
          · omega
          · have := (versionAsc_cons_elim ha).1 a' hmem
            omega
      · by_cases h2 : b.version < x.version
        · have he' : (correlateMigrations (x :: xs) bs).2 = some e := by
            simpa [correlateMigrations, h1, h2] using he
          obtain ⟨habs, a, hlast, hmem, hnot, hmin⟩ :=
            ih (x :: xs) ha (versionAsc_cons_elim hb).2 e he'
          have hge : x.version ≤ a.version := by
            rcases List.mem_cons.mp hmem with rfl | hmem'
            · omega
            · have := (versionAsc_cons_elim ha).1 a hmem'
              omega
          refine ⟨habs, a, ?_, hmem, ?_, ?_⟩
          · simpa [correlateMigrations, h1, h2] using hlast
          · intro hin
            rcases mem_versionsOf_cons.mp hin with hv | hv
            · omega
            · exact hnot hv
          · intro a' ha' hnotin
            have : a'.version ∉ versionsOf bs := by
              intro hin
              exact hnotin (mem_versionsOf_cons.mpr (Or.inr hin))
            exact hmin a' ha' this
        · have hv : x.version = b.version := by omega
          have he' : (correlateMigrations xs bs).2 = some e := by
            simpa [correlateMigrations, h1, h2] using he
          obtain ⟨habs, a, hlast, hmem, hnot, hmin⟩ :=
            ih xs (versionAsc_cons_elim ha).2 (versionAsc_cons_elim hb).2 e he'
          have hgt : x.version < a.version := (versionAsc_cons_elim ha).1 a hmem
          have hfst : (correlateMigrations (x :: xs) (b :: bs)).1 =
              b :: (correlateMigrations xs bs).1 := by
            simp [correlateMigrations, h1, h2]
          have hne : (correlateMigrations xs bs).1 ≠ [] := by
            intro hnil
            rw [hnil] at hlast
            simp at hlast
          refine ⟨habs, a, ?_, List.mem_cons_of_mem x hmem, ?_, ?_⟩
          · rw [hfst]
            cases hcl : (correlateMigrations xs bs).1 with
            | nil => exact absurd hcl hne
            | cons c cs =>
              rw [List.getLast?_cons_cons, ← hcl]
              exact hlast
          · intro hin
            rcases mem_versionsOf_cons.mp hin with hveq | hveq
            · omega
            · exact hnot hveq
          · intro a' ha' hnotin
            rcases List.mem_cons.mp ha' with rfl | hmem'
            · exfalso
              exact hnotin (mem_versionsOf_cons.mpr (Or.inl hv))
            · have : a'.version ∉ versionsOf bs := by
                intro hin
                exact hnotin (mem_versionsOf_cons.mpr (Or.inr hin))
              exact hmin a' hmem' this

/-! Lemmas about `mergeMigrations` on a fully-applied history. -/

theorem mergeLoop_lockstep (actual : List Migration) (mx : Int) :
    ∀ (fuel k : Nat), actual.length - k < fuel →
      mergeLoop (actual.map markStored) actual mx fuel k k =
        some ((actual.map markStored).drop k) := by
  intro fuel
  induction fuel with
  | zero => intro k h; omega
  | succ f ihf =>
    intro k h
    by_cases hk : k < actual.length
    · have hb : actual[k]? = some actual[k] := List.getElem?_eq_getElem hk
      have hk' : k < (actual.map markStored).length := by
        rw [List.length_map]; exact hk
      have ha : (actual.map markStored)[k]? = some (markStored actual[k]) := by
        rw [List.getElem?_map, hb]; rfl
      have hdropa : (actual.map markStored).drop k =
          markStored actual[k] :: (actual.map markStored).drop (k + 1) := by
        rw [List.drop_eq_getElem_cons hk', List.getElem_map]
      rw [mergeLoop, ha, hb]
      by_cases hmx : actual[k].version < mx
      · have hvv : (markStored actual[k]).version = actual[k].version := rfl
        simp only [hvv, hmx, if_true, lt_irrefl, if_false, ha]
        rw [ihf (k + 1) (by omega), hdropa]
        rfl
      · have hdropb : actual.drop k = actual[k] :: actual.drop (k + 1) :=
          List.drop_eq_getElem_cons hk
        simp only [hmx, if_false]
        rw [hdropb, List.takeWhile_cons]
        simp [hmx]
    · have hb : actual[k]? = none := List.getElem?_eq_none (by omega)
      have ha : (actual.map markStored)[k]? = none := by
        rw [List.getElem?_map, hb]; rfl
      have hda : (actual.map markStored).drop k = [] :=
        List.drop_eq_nil_of_le (by rw [List.length_map]; omega)
      have hdb : actual.drop k = [] := List.drop_eq_nil_of_le (by omega)
      rw [mergeLoop, ha, hb, hda, hdb]
      rfl

/-! Lemmas about reading back a history that was persisted in version order. -/

theorem sortRecs_map_toRec {l : List Migration} (h : versionAsc l) :
    sortRecs (l.map toRec) = l.map toRec := by
  apply List.Sorted.insertionSort_eq
  rw [List.Sorted, List.pairwise_map]
  exact h.imp (fun hab => le_of_lt hab)

theorem findAsc_map_toRec {l : List Migration} (h : versionAsc l) :
    findAsc (l.map toRec) = l.map reify := by
  unfold findAsc
  rw [sortRecs_map_toRec h, List.map_map]
  rfl

theorem correlate_reify :
    ∀ l : List Migration, correlateMigrations (l.map reify) l = (l, none)
  | [] => rfl
  | m :: ms => by
    have ih := correlate_reify ms
    simp [correlateMigrations, reify, ih]

/-! Lemmas about the command loops. -/

theorem upLoop_first_failure :
    ∀ (l1 : List Migration) (m : Migration) (l2 : List Migration) (db : List Rec) (nv : Int),
      (∀ x ∈ l1, x.stored = true ∨ x.upOk = true) →
      m.stored = false → m.upOk = false →
      (upLoop (l1 ++ m :: l2) db nv).newv = m.version ∧
      (upLoop (l1 ++ m :: l2) db nv).err = some Err.bodyFailed := by
  intro l1
  induction l1 with
  | nil =>
    intro m l2 db nv _ hs hu
    simp [upLoop, hs, hu]
  | cons x xs ih =>
    intro m l2 db nv hpre hs hu
    have hxs : ∀ y ∈ xs, y.stored = true ∨ y.upOk = true :=
      fun y hy => hpre y (List.mem_cons_of_mem x hy)
    by_cases hst : x.stored = true
    · simpa [upLoop, hst] using ih m l2 db nv hxs hs hu
    · have hok : x.upOk = true :=
        (hpre x (List.mem_cons_self x xs)).resolve_left hst
      have hst' : x.stored = false := by
        cases hxv : x.stored
        · rfl
        · exact absurd hxv hst
      simpa [upLoop, hst', hok] using
        ih m l2 (db ++ [toRec x]) x.version hxs hs hu

theorem resetRevGo_all_ok :
    ∀ (l : List Migration) (db : List Rec) (nv : Int),
      (∀ x ∈ l, x.downOk = true) →
      resetRevGo l db nv =
        ⟨((l.getLast?).map (fun m => m.version)).getD nv, none, foldDel l db,
          l.map (fun m => Op.down m.version)⟩ := by
  intro l
  induction l with
  | nil => intro db nv _; rfl
  | cons m rest ih =>
    intro db nv hok
    have hm : m.downOk = true := hok m (List.mem_cons_self m rest)
    have hrest : ∀ y ∈ rest, y.downOk = true :=
      fun y hy => hok y (List.mem_cons_of_mem m hy)
    have hstep : resetRevGo (m :: rest) db nv =
        ⟨(resetRevGo rest (stepDel db m)
            (((rest.head?).map (fun p => p.version)).getD m.version)).newv,
          (resetRevGo rest (stepDel db m)
            (((rest.head?).map (fun p => p.version)).getD m.version)).err,
          (resetRevGo rest (stepDel db m)
            (((rest.head?).map (fun p => p.version)).getD m.version)).db,
          Op.down m.version ::
            (resetRevGo rest (stepDel db m)
              (((rest.head?).map (fun p => p.version)).getD m.version)).log⟩ := by
      simp [resetRevGo, hm, stepDel]
    rw [hstep, ih (stepDel db m)
        (((rest.head?).map (fun p => p.version)).getD m.version) hrest]
    have hfold : foldDel (m :: rest) db = foldDel rest (stepDel db m) := rfl
    cases rest with
    | nil => simp [foldDel]
    | cons y ys =>
      simp only [List.getLast?_cons_cons, hfold, List.map_cons, List.head?_cons,
        Option.map_some', Option.getD_some]
      cases hgl : (y :: ys).getLast? with
      | none => simp at hgl
      | some g => simp

theorem resetRevGo_failure :
    ∀ (l1 : List Migration) (m : Migration) (l2 : List Migration) (db : List Rec) (nv : Int),
      (∀ x ∈ l1, x.downOk = true) → m.downOk = false →
      (resetRevGo (l1 ++ m :: l2) db nv).err = some Err.bodyFailed ∧
      (resetRevGo (l1 ++ m :: l2) db nv).newv =
        ((l2.head?).map (fun p => p.version)).getD m.version := by
  intro l1
  induction l1 with
  | nil =>
    intro m l2 db nv _ hm
    simp [resetRevGo, hm]
  | cons x xs ih =>
    intro m l2 db nv hok hm
    have hx : x.downOk = true := hok x (List.mem_cons_self x xs)
    have hxs : ∀ y ∈ xs, y.downOk = true :=
      fun y hy => hok y (List.mem_cons_of_mem x hy)
    have := ih m l2 (stepDel db x)
      ((((xs ++ m :: l2).head?).map (fun p => p.version)).getD x.version) hxs hm
    simpa [resetRevGo, hx, stepDel] using this

/-! Lemmas about record deletion. -/

theorem deleteVersion_append_not_mem :
    ∀ (front l2 : List Rec) (v : Int), (∀ r ∈ front, r.version ≠ v) →
      deleteVersion (front ++ l2) v = front ++ deleteVersion l2 v := by
  intro front
  induction front with
  | nil => intro l2 v _; rfl
  | cons r rest ih =>
    intro l2 v h
    have hr : r.version ≠ v := h r (List.mem_cons_self r rest)
    have hrest : ∀ x ∈ rest, x.version ≠ v :=
      fun x hx => h x (List.mem_cons_of_mem r hx)
    simp [deleteVersion, hr, ih l2 v hrest]

theorem foldDel_reverse_clears :
    ∀ (l : List Migration) (front : List Rec),
      (∀ m ∈ l, 0 < m.version) →
      (∀ m ∈ l, ∀ r ∈ front, r.version ≠ m.version) →
      (versionsOf l).Nodup →
      foldDel l.reverse (front ++ l.map toRec) = front := by
  intro l
  induction l with
  | nil => intro front _ _ _; simp [foldDel]
  | cons m ms ih =>
    intro front hpos hfr hnd
    have hmpos : 0 < m.version := hpos m (List.mem_cons_self m ms)
    have hnd' : (∀ x ∈ ms, ¬x.version = m.version) ∧
        (List.map (fun mg => mg.version) ms).Nodup := by
      simpa [versionsOf] using hnd
    have hnotin : m.version ∉ versionsOf ms := by
      intro hmem
      rcases List.mem_map.mp hmem with ⟨x, hx, hvx⟩
      exact hnd'.1 x hx hvx
    have hstep1 : foldDel (m :: ms).reverse (front ++ (m :: ms).map toRec) =
        stepDel (foldDel ms.reverse ((front ++ [toRec m]) ++ ms.map toRec)) m := by
      rw [List.reverse_cons]
      unfold foldDel
      rw [List.foldl_append]
      simp [List.map_cons, List.append_assoc]
    rw [hstep1, ih (front ++ [toRec m])
        (fun y hy => hpos y (List.mem_cons_of_mem m hy))
        ?_ (by simpa [versionsOf] using hnd'.2)]
    · unfold stepDel
      rw [if_pos hmpos,
        deleteVersion_append_not_mem front [toRec m] m.version
          (fun r hr => hfr m (List.mem_cons_self m ms) r hr)]
      simp [deleteVersion, toRec]
    · intro y hy r hr
      rcases List.mem_append.mp hr with hrf | hrm
      · exact hfr y (List.mem_cons_of_mem m hy) r hrf
      · have : r = toRec m := by simpa using hrm
        subst this
        intro hcontra
        apply hnotin
        rw [show (toRec m).version = m.version from rfl] at hcontra
        rw [hcontra]
        exact List.mem_map.mpr ⟨y, hy, rfl⟩

/-! Lemmas about the `SetVersion` scan. -/

theorem takeToTarget_not_found :
    ∀ (l : List Migration) (t : Int), t ∉ versionsOf l → takeToTarget l t = (l, none) := by
  intro l
  induction l with
  | nil => intro t _; rfl
  | cons m rest ih =>
    intro t hnot
    have hm : ¬m.version = t := by
      intro hv
      exact hnot (mem_versionsOf_cons.mpr (Or.inl hv.symm))
    have hrest : t ∉ versionsOf rest := by
      intro hmem
      exact hnot (mem_versionsOf_cons.mpr (Or.inr hmem))
    simp [takeToTarget, hm, ih t hrest]

theorem takeToTarget_found :
    ∀ (l : List Migration) (t : Int), versionAsc l → t ∈ versionsOf l →
      ∃ f, takeToTarget l t = (l.filter (fun m => decide (m.version ≤ t)), some f) ∧
        f.version = t ∧
        (l.filter (fun m => decide (m.version ≤ t))).getLast? = some f := by
  intro l
  induction l with
  | nil => intro t _ h; simp [versionsOf] at h
  | cons m rest ih =>
    intro t hasc hmem
    by_cases hm : m.version = t
    · have hfrest : rest.filter (fun mg => decide (mg.version ≤ t)) = [] := by
        rw [List.filter_eq_nil_iff]
        intro y hy
        have := (versionAsc_cons_elim hasc).1 y hy
        simp only [decide_eq_true_eq]
        omega
      refine ⟨m, ?_, hm, ?_⟩
      · rw [List.filter_cons, if_pos (by simp [hm])]
        simp [takeToTarget, hm, hfrest]
      · rw [List.filter_cons, if_pos (by simp [hm]), hfrest]
        rfl
    · have hmemr : t ∈ versionsOf rest := by
        rcases mem_versionsOf_cons.mp hmem with hv | hv
        · exact absurd hv.symm hm
        · exact hv
      obtain ⟨f, heq, hfv, hlast⟩ := ih t (versionAsc_cons_elim hasc).2 hmemr
      have hmlt : m.version < t := by
        rcases List.mem_map.mp hmemr with ⟨y, hy, hyv⟩
        have := (versionAsc_cons_elim hasc).1 y hy
        omega
      have hkeep : (decide (m.version ≤ t)) = true := by
        simp only [decide_eq_true_eq]
        omega
      have hne : rest.filter (fun mg => decide (mg.version ≤ t)) ≠ [] := by
        intro hnil
        rw [hnil] at hlast
        simp at hlast
      refine ⟨f, ?_, hfv, ?_⟩
      · rw [List.filter_cons, if_pos hkeep]
        simp [takeToTarget, hm, heq]
      · rw [List.filter_cons, if_pos hkeep]
        cases hcl : rest.filter (fun mg => decide (mg.version ≤ t)) with
        | nil => exact absurd hcl hne
        | cons c cs =>
          rw [List.getLast?_cons_cons, ← hcl]
          exact hlast

/-! Lemmas about the normalized known set. -/

theorem newMigrator_sorted (ms : List Migration) :
    List.Sorted migLE (newMigratorMigrations ms) :=
  List.sorted_insertionSort migLE (ms ++ [zeroMigration])

theorem newMigrator_perm (ms : List Migration) :
    (newMigratorMigrations ms).Perm (ms ++ [zeroMigration]) :=
  List.perm_insertionSort migLE (ms ++ [zeroMigration])

theorem correlate_err_absent :
    ∀ (actual applied : List Migration),
      (correlateMigrations applied actual).2 = none ∨
      (correlateMigrations applied actual).2 = some Err.absent := by
  intro actual
  induction actual with
  | nil =>
    intro applied
    cases applied with
    | nil => exact Or.inl rfl
    | cons x xs => exact Or.inr rfl
  | cons b bs ih =>
    intro applied
    cases applied with
    | nil => exact Or.inl rfl
    | cons x xs =>
      by_cases h1 : x.version < b.version
      · right
        simp [correlateMigrations, h1]
      · by_cases h2 : b.version < x.version
        · rcases ih (x :: xs) with h | h
          · left
            simpa [correlateMigrations, h1, h2] using h
          · right
            simpa [correlateMigrations, h1, h2] using h
        · rcases ih xs with h | h
          · left
            simpa [correlateMigrations, h1, h2] using h
          · right
            simpa [correlateMigrations, h1, h2] using h

theorem lastVersion_map_reify (l : List Migration) :
    lastVersion (l.map reify) = lastVersion l := by
  unfold lastVersion
  rw [mapGetLast]
  cases l.getLast? <;> rfl

/-! Claim theorems. -/

/-- C1. The claim states that `up` with target T executes every known
migration with version at most T that is not yet applied, in ascending
order, and nothing above T. The code refutes this: with the known set
`{0, 1, 2}` (versions strictly ascending) and the persisted history
`{0, 2}` (reachable by running the previous code version `{0, 2}` and then
adding migration 1), `up 2` should apply migration 1, but the merge loop
(migrator.go line 362) compares `actual[j].Less(&applied[j])` — indexing
`applied` with `j` instead of `i` — and reads `applied[2]` out of range, a
Go runtime panic modelled as `none`: nothing at all is applied. -/
theorem c1_up_panics_on_gap_history :
    Up [⟨0, "-", true, true, false⟩, ⟨1, "a", true, true, false⟩,
        ⟨2, "b", true, true, false⟩]
      [⟨0, "-"⟩, ⟨2, "b"⟩] 2 = none := by
  decide

/-- C2. The claim states that for every pair of version-ascending inputs the
merge only reads in-bounds indices. Refuted by the code: both inputs below
are strictly ascending by version, yet the loop reaches `i = 1`, `j = 2`
and evaluates `applied[j]` with `applied` of length 2 (migrator.go line
362), the out-of-domain branch modelled as `none`. -/
theorem c2_merge_reads_out_of_range :
    versionAsc [⟨0, "-", true, true, true⟩, ⟨5, "e", true, true, true⟩] ∧
    versionAsc [⟨0, "-", true, true, false⟩, ⟨1, "a", true, true, false⟩,
        ⟨2, "b", true, true, false⟩, ⟨3, "c", true, true, false⟩] ∧
    mergeMigrations
      [⟨0, "-", true, true, true⟩, ⟨5, "e", true, true, true⟩]
      [⟨0, "-", true, true, false⟩, ⟨1, "a", true, true, false⟩,
        ⟨2, "b", true, true, false⟩, ⟨3, "c", true, true, false⟩] (-1) = none := by
  exact ⟨by decide, by decide, by decide⟩

/-- C9. Merge is idempotent: merging a history consisting of stored copies
of every known migration with that same known set and no target returns the
history itself, in which every item is stored, so a subsequent `up` executes
nothing. -/
theorem c9_merge_idempotent (actual : List Migration) :
    mergeMigrations (actual.map markStored) actual (-1) =
      some (actual.map markStored) ∧
    ∀ m ∈ actual.map markStored, m.stored = true := by
  constructor
  · unfold mergeMigrations
    have h := mergeLoop_lockstep actual (maxBound actual (-1))
      ((actual.map markStored).length + actual.length + 1) 0
      (by rw [List.length_map]; omega)
    rw [List.drop_zero] at h
    exact h
  · intro m hm
    rcases List.mem_map.mp hm with ⟨x, _, rfl⟩
    rfl

/-- C4. Every read-dependent command (`up`, `down`, `reset`, `version`)
invoked on an absent-or-empty migrations storage returns the
not-initialized error and leaves the persisted state untouched, executing
no migration body. -/
theorem c4_commands_on_empty_storage (migs : List Migration) (target : Int) :
    Up migs [] target = some ⟨0, 0, some Err.notInit, [], []⟩ ∧
    Down migs [] = ⟨0, 0, some Err.notInit, [], []⟩ ∧
    Reset migs [] = ⟨0, 0, some Err.notInit, [], []⟩ ∧
    VersionCmd [] = ⟨0, 0, some Err.notInit, [], []⟩ :=
  ⟨rfl, rfl, rfl, rfl⟩

/-- C5 counterexample. Known set `{0, 1}` with the apply body of migration 1
failing, history `{0}`: `up` returns `newVersion = 1`, the version of the
step that failed, although the last successfully completed and persisted
step is version 0 (the collection still holds only the zero record). The
claim that `newVersion` equals the version of the last completed and
persisted step is therefore false. -/
theorem c5_up_reports_failing_version :
    Up [⟨0, "-", true, true, false⟩, ⟨1, "a", false, true, false⟩]
        [⟨0, "-"⟩] (-1) =
      some ⟨0, 1, some Err.bodyFailed, [⟨0, "-"⟩], [Op.up 1]⟩ ∧
    (1 : Int) ≠ 0 := by
  exact ⟨by decide, by decide⟩

/-- C5 amended: when a migration body fails, the returned `newVersion` is
the version of the step being attempted, not of the last persisted step:
for `up` it is the failing migration's own version (the first pending
migration whose apply fails, all earlier pending ones succeeding); for
`down` it is the version of the predecessor the failing revert was moving
to; for `reset` it is the next-lower correlated version (or the item's own
version at the bottom of the plan). -/
theorem c5_newv_is_attempted_step :
    (∀ (l1 : List Migration) (m : Migration) (l2 : List Migration)
        (db : List Rec) (nv : Int),
        (∀ x ∈ l1, x.stored = true ∨ x.upOk = true) →
        m.stored = false → m.upOk = false →
        (upLoop (l1 ++ m :: l2) db nv).newv = m.version ∧
        (upLoop (l1 ++ m :: l2) db nv).err = some Err.bodyFailed) ∧
    (∀ (migs : List Migration) (db : List Rec) (mig pred : Migration),
        db.isEmpty = false →
        downLoop migs (maxVersion db) migs.length = some (mig, some pred) →
        mig.downOk = false →
        Down migs db =
          ⟨maxVersion db, pred.version, some Err.bodyFailed, db,
            [Op.down mig.version]⟩) ∧
    (∀ (l1 : List Migration) (m : Migration) (l2 : List Migration)
        (db : List Rec) (nv : Int),
        (∀ x ∈ l1, x.downOk = true) → m.downOk = false →
        (resetRevGo (l1 ++ m :: l2) db nv).err = some Err.bodyFailed ∧
        (resetRevGo (l1 ++ m :: l2) db nv).newv =
          ((l2.head?).map (fun p => p.version)).getD m.version) := by
  refine ⟨upLoop_first_failure, ?_, resetRevGo_failure⟩
  intro migs db mig pred hne hdl hdk
  simp [Down, hne, hdl, hdk]

theorem c5_newv_is_attempted_step_witness :
    (upLoop [⟨1, "a", false, true, false⟩] [⟨0, "-"⟩] 0).newv = 1 ∧
    (upLoop [⟨1, "a", false, true, false⟩] [⟨0, "-"⟩] 0).err =
      some Err.bodyFailed :=
  c5_newv_is_attempted_step.1 [] ⟨1, "a", false, true, false⟩ [] [⟨0, "-"⟩] 0
    (by intro x hx; cases hx) rfl rfl

/-- C6 counterexample. Known set `{0, 1, 3}` (migration 2 deleted from
code), history `{0, 1, 2, 3}`: the correlation's partial plan ends with the
first absent version 2, but `reset` returns `newVersion = 3` — the version
before the command — not the first absent version 2, and the plan itself is
not part of `reset`'s return value. The state is untouched and no revert
runs, as the claim says, but the claimed `newVersion` is wrong. -/
theorem c6_reset_newv_not_first_absent :
    Reset [⟨0, "-", true, true, false⟩, ⟨1, "a", true, true, false⟩,
        ⟨3, "c", true, true, false⟩]
        [⟨0, "-"⟩, ⟨1, "a"⟩, ⟨2, "b"⟩, ⟨3, "c"⟩] =
      ⟨3, 3, some Err.absent, [⟨0, "-"⟩, ⟨1, "a"⟩, ⟨2, "b"⟩, ⟨3, "c"⟩], []⟩ ∧
    ((correlateMigrations (findAsc [⟨0, "-"⟩, ⟨1, "a"⟩, ⟨2, "b"⟩, ⟨3, "c"⟩])
        [⟨0, "-", true, true, false⟩, ⟨1, "a", true, true, false⟩,
          ⟨3, "c", true, true, false⟩]).1.getLast?).map (fun m => m.version) =
      some 2 ∧
    (3 : Int) ≠ 2 := by
  exact ⟨by decide, by decide, by decide⟩

/-- C6 amended: when the correlation walk finds an applied migration with no
corresponding known code, `reset` returns the absent error with
`newVersion = oldVersion` (the version before the command, not the first
absent version), executes no revert and deletes no record; the partial
rollback plan ending at the first missing version stays internal to
`correlateMigrations` and is not returned by `reset`. -/
theorem c6_reset_correlation_failure (migs : List Migration) (db : List Rec)
    (hne : db.isEmpty = false)
    (herr : (correlateMigrations (findAsc db) migs).2 ≠ none) :
    Reset migs db =
      ⟨lastVersion (findAsc db), lastVersion (findAsc db), some Err.absent,
        db, []⟩ := by
  rcases correlate_err_absent migs (findAsc db) with h | h
  · exact absurd h herr
  · simp [Reset, hne, h]

theorem c6_reset_correlation_failure_witness :
    Reset [⟨0, "-", true, true, false⟩, ⟨1, "a", true, true, false⟩,
        ⟨3, "c", true, true, false⟩]
        [⟨0, "-"⟩, ⟨1, "a"⟩, ⟨2, "x"⟩, ⟨3, "c"⟩] =
      ⟨3, 3, some Err.absent, [⟨0, "-"⟩, ⟨1, "a"⟩, ⟨2, "x"⟩, ⟨3, "c"⟩], []⟩ :=
  c6_reset_correlation_failure
    [⟨0, "-", true, true, false⟩, ⟨1, "a", true, true, false⟩,
      ⟨3, "c", true, true, false⟩]
    [⟨0, "-"⟩, ⟨1, "a"⟩, ⟨2, "x"⟩, ⟨3, "c"⟩] rfl (by decide)

/-- C3. For version-ascending inputs, `correlateMigrations` succeeds exactly
when every applied version has an exact match in the known set; on success
the output carries the applied versions position by position (hence equal
length) and consists of known (executable) migrations; on failure the error
is the absent error and the output's last element is the applied migration
with the first (smallest) unmatched version. -/
theorem c3_correlate_spec (applied actual : List Migration)
    (ha : versionAsc applied) (hb : versionAsc actual) :
    ((correlateMigrations applied actual).2 = none ↔
      ∀ a ∈ applied, a.version ∈ versionsOf actual) ∧
    ((correlateMigrations applied actual).2 = none →
      versionsOf (correlateMigrations applied actual).1 = versionsOf applied ∧
      ∀ c ∈ (correlateMigrations applied actual).1, c ∈ actual) ∧
    (∀ e, (correlateMigrations applied actual).2 = some e →
      e = Err.absent ∧
      ∃ a, ((correlateMigrations applied actual).1.getLast? = some a ∧
        a ∈ applied ∧ a.version ∉ versionsOf actual ∧
        ∀ a' ∈ applied, a'.version ∉ versionsOf actual →
          a.version ≤ a'.version)) :=
  ⟨⟨correlate_covered_of_none actual applied,
      correlate_none_of_covered actual applied ha hb⟩,
    correlate_success_shape actual applied,
    correlate_failure_shape actual applied ha hb⟩

theorem c3_correlate_spec_witness :
    ((correlateMigrations
        [⟨0, "-", true, true, true⟩, ⟨1, "a", true, true, true⟩]
        [⟨0, "-", true, true, false⟩, ⟨1, "a", true, true, false⟩]).2 = none ↔
      ∀ a ∈ ([⟨0, "-", true, true, true⟩, ⟨1, "a", true, true, true⟩] : List Migration),
        a.version ∈ versionsOf
          [⟨0, "-", true, true, false⟩, ⟨1, "a", true, true, false⟩]) ∧
    ((correlateMigrations
        [⟨0, "-", true, true, true⟩, ⟨1, "a", true, true, true⟩]
        [⟨0, "-", true, true, false⟩, ⟨1, "a", true, true, false⟩]).2 = none →
      versionsOf (correlateMigrations
        [⟨0, "-", true, true, true⟩, ⟨1, "a", true, true, true⟩]
        [⟨0, "-", true, true, false⟩, ⟨1, "a", true, true, false⟩]).1 =
        versionsOf [⟨0, "-", true, true, true⟩, ⟨1, "a", true, true, true⟩] ∧
      ∀ c ∈ (correlateMigrations
        [⟨0, "-", true, true, true⟩, ⟨1, "a", true, true, true⟩]
        [⟨0, "-", true, true, false⟩, ⟨1, "a", true, true, false⟩]).1,
        c ∈ ([⟨0, "-", true, true, false⟩, ⟨1, "a", true, true, false⟩] : List Migration)) ∧
    (∀ e, (correlateMigrations
        [⟨0, "-", true, true, true⟩, ⟨1, "a", true, true, true⟩]
        [⟨0, "-", true, true, false⟩, ⟨1, "a", true, true, false⟩]).2 = some e →
      e = Err.absent ∧
      ∃ a, ((correlateMigrations
        [⟨0, "-", true, true, true⟩, ⟨1, "a", true, true, true⟩]
        [⟨0, "-", true, true, false⟩, ⟨1, "a", true, true, false⟩]).1.getLast? =
          some a ∧
        a ∈ ([⟨0, "-", true, true, true⟩, ⟨1, "a", true, true, true⟩] : List Migration) ∧
        a.version ∉ versionsOf
          [⟨0, "-", true, true, false⟩, ⟨1, "a", true, true, false⟩] ∧
        ∀ a' ∈ ([⟨0, "-", true, true, true⟩, ⟨1, "a", true, true, true⟩] : List Migration),
          a'.version ∉ versionsOf
            [⟨0, "-", true, true, false⟩, ⟨1, "a", true, true, false⟩] →
          a.version ≤ a'.version)) :=
  c3_correlate_spec
    [⟨0, "-", true, true, true⟩, ⟨1, "a", true, true, true⟩]
    [⟨0, "-", true, true, false⟩, ⟨1, "a", true, true, false⟩]
    (by decide) (by decide)

/-- C7 counterexample. The caller-supplied list `[{version := -1}]` has
unique versions, yet the registry output starts with the caller's migration
of version `-1`, not with the zero migration: nothing in `NewMigrator`
constrains caller versions to be positive. -/
theorem c7_registry_head_not_zero :
    (versionsOf [⟨-1, "neg", true, true, false⟩]).Nodup ∧
    (newMigratorMigrations [⟨-1, "neg", true, true, false⟩]).head? =
      some ⟨-1, "neg", true, true, false⟩ ∧
    (-1 : Int) ≠ 0 := by
  exact ⟨by decide, by decide, by decide⟩

/-- C7 amended: for every caller-supplied list with unique and strictly
positive versions, the registry output is strictly ascending by version and
its first element is the zero migration (version 0, name "-"). -/
theorem c7_registry_sorted_head_zero (ms : List Migration)
    (hpos : ∀ m ∈ ms, 0 < m.version)
    (hnd : (versionsOf ms).Nodup) :
    versionAsc (newMigratorMigrations ms) ∧
    (newMigratorMigrations ms).head? = some zeroMigration := by
  have hperm := newMigrator_perm ms
  have hsorted := newMigrator_sorted ms
  have hndL : (versionsOf (ms ++ [zeroMigration])).Nodup := by
    unfold versionsOf
    rw [List.map_append, List.nodup_append]
    refine ⟨hnd, List.nodup_singleton _, ?_⟩
    intro v hv hv2
    have hv0 : v = (0 : Int) := by simpa [zeroMigration] using hv2
    rcases List.mem_map.mp hv with ⟨x, hx, hxv⟩
    have := hpos x hx
    omega
  have hndOut : (versionsOf (newMigratorMigrations ms)).Nodup := by
    unfold versionsOf
    exact ((hperm.map (fun m => m.version)).nodup_iff).mpr
      (by unfold versionsOf at hndL; exact hndL)
  have hne : List.Pairwise (fun a b : Migration => a.version ≠ b.version)
      (newMigratorMigrations ms) :=
    List.pairwise_map.mp hndOut
  have hasc : versionAsc (newMigratorMigrations ms) := by
    unfold versionAsc
    have hle : List.Pairwise migLE (newMigratorMigrations ms) := hsorted
    exact (hle.and hne).imp (fun h => lt_of_le_of_ne h.1 h.2)
  refine ⟨hasc, ?_⟩
  have hzmem : zeroMigration ∈ newMigratorMigrations ms :=
    (hperm.mem_iff).mpr (List.mem_append.mpr (Or.inr (List.mem_singleton.mpr rfl)))
  cases hout : newMigratorMigrations ms with
  | nil => rw [hout] at hzmem; cases hzmem
  | cons h t =>
    have hhmem : h ∈ ms ++ [zeroMigration] :=
      (hperm.mem_iff).mp (by rw [hout]; exact List.mem_cons_self h t)
    have hzz : zeroMigration ∈ h :: t := by rw [← hout]; exact hzmem
    have hh : h = zeroMigration := by
      rcases List.mem_cons.mp hzz with hz | hz
      · exact hz.symm
      · have hsorted' : List.Sorted migLE (h :: t) := by
          rw [← hout]; exact hsorted
        have hle0 : migLE h zeroMigration :=
          List.rel_of_sorted_cons hsorted' _ hz
        rcases List.mem_append.mp hhmem with hin | hin
        · exfalso
          have hp := hpos h hin
          have : h.version ≤ (0 : Int) := hle0
          omega
        · simpa using hin
    rw [List.head?_cons, hh]

theorem c7_registry_sorted_head_zero_witness :
    versionAsc (newMigratorMigrations [⟨1, "a", true, true, false⟩]) ∧
    (newMigratorMigrations [⟨1, "a", true, true, false⟩]).head? =
      some zeroMigration :=
  c7_registry_sorted_head_zero [⟨1, "a", true, true, false⟩]
    (by intro m hm; rcases List.mem_singleton.mp hm with rfl; decide)
    (by decide)

/-- C8. On an initialized state with a strictly ascending known set:
if the target version is known and differs from the current version,
`set_version` drops all records and re-inserts exactly the records of the
known migrations with version up to and including the target, executes no
apply or revert body, and returns old = the version before and
new = target; if the target equals the current version nothing is changed;
if the target is unknown it returns the target-not-found error and changes
nothing. -/
theorem c8_set_version_spec (migs : List Migration) (db : List Rec)
    (target : Int) (hne : db.isEmpty = false) (hasc : versionAsc migs) :
    (target ∈ versionsOf migs → maxVersion db ≠ target →
      SetVersion migs db target =
        ⟨maxVersion db, target, none,
          (migs.filter (fun m => decide (m.version ≤ target))).map toRec, []⟩) ∧
    (target ∈ versionsOf migs → maxVersion db = target →
      SetVersion migs db target =
        ⟨maxVersion db, maxVersion db, none, db, []⟩) ∧
    (target ∉ versionsOf migs →
      SetVersion migs db target =
        ⟨maxVersion db, 0, some Err.targetNotFound, db, []⟩) := by
  refine ⟨?_, ?_, ?_⟩
  · intro hmem hneq
    obtain ⟨f, heq, hfv, hlast⟩ := takeToTarget_found migs target hasc hmem
    have hlastv : lastVersion
        (migs.filter (fun m => decide (m.version ≤ target))) = target := by
      unfold lastVersion
      rw [hlast]
      simp [hfv]
    simp only [SetVersion, hne, Bool.false_eq_true, if_false, heq]
    rw [if_neg (by rw [hfv]; exact hneq), hlastv]
  · intro hmem heq0
    obtain ⟨f, heq, hfv, _⟩ := takeToTarget_found migs target hasc hmem
    simp only [SetVersion, hne, Bool.false_eq_true, if_false, heq]
    rw [if_pos (by rw [hfv]; exact heq0)]
  · intro hnot
    simp only [SetVersion, hne, Bool.false_eq_true, if_false,
      takeToTarget_not_found migs target hnot]

theorem c8_set_version_spec_witness :
    SetVersion
      [⟨0, "-", true, true, false⟩, ⟨1, "a", true, true, false⟩,
        ⟨2, "b", true, true, false⟩, ⟨3, "c", true, true, false⟩]
      [⟨0, "-"⟩, ⟨1, "a"⟩] 2 =
      ⟨1, 2, none, [⟨0, "-"⟩, ⟨1, "a"⟩, ⟨2, "b"⟩], []⟩ :=
  (c8_set_version_spec
    [⟨0, "-", true, true, false⟩, ⟨1, "a", true, true, false⟩,
      ⟨2, "b", true, true, false⟩, ⟨3, "c", true, true, false⟩]
    [⟨0, "-"⟩, ⟨1, "a"⟩] 2 rfl (by decide)).1 (by decide) (by decide)

/-- C10. For a known set headed by the zero migration, strictly ascending,
with all revert bodies succeeding, and a history that persists exactly the
known set (the state after `up` with no target), `reset` reverts every
correlated migration from the highest version down to and including the
zero migration (whose revert is a no-op), deletes each positive-version
record as it is reverted, never deletes the zero record, returns old = the
version before and new = 0, and leaves exactly the zero record persisted. -/
theorem c10_reset_full_rollback (m0 : Migration) (rest : List Migration)
    (hv0 : m0.version = 0) (hn0 : m0.name = "-")
    (hasc : versionAsc (m0 :: rest))
    (hdk : ∀ m ∈ m0 :: rest, m.downOk = true) :
    Reset (m0 :: rest) ((m0 :: rest).map toRec) =
      ⟨lastVersion (m0 :: rest), 0, none, [⟨0, "-"⟩],
        (m0 :: rest).reverse.map (fun m => Op.down m.version)⟩ := by
  have hfind := findAsc_map_toRec hasc
  have hcor := correlate_reify (m0 :: rest)
  have hrev : ∀ x ∈ (m0 :: rest).reverse, x.downOk = true := by
    intro x hx
    exact hdk x (List.mem_reverse.mp hx)
  have hrun := resetRevGo_all_ok ((m0 :: rest).reverse) ((m0 :: rest).map toRec)
    (lastVersion ((m0 :: rest).map reify)) hrev
  have hnewv : ((((m0 :: rest).reverse.getLast?).map (fun m => m.version)).getD
      (lastVersion ((m0 :: rest).map reify))) = 0 := by
    rw [List.getLast?_reverse]
    simp [hv0]
  have hpos' : ∀ m ∈ rest, 0 < m.version := by
    intro y hy
    have := (versionAsc_cons_elim hasc).1 y hy
    omega
  have hndrest : (versionsOf rest).Nodup := by
    unfold versionsOf
    exact List.pairwise_map.mpr
      ((versionAsc_cons_elim hasc).2.imp (fun h => ne_of_lt h))
  have hfold : foldDel (m0 :: rest).reverse ((m0 :: rest).map toRec) =
      [⟨0, "-"⟩] := by
    rw [List.reverse_cons]
    unfold foldDel
    rw [List.foldl_append]
    have hclear := foldDel_reverse_clears rest [toRec m0] hpos'
      (fun y hy r hr => by
        have hr' : r = toRec m0 := by simpa using hr
        subst hr'
        show (toRec m0).version ≠ y.version
        have hyp := hpos' y hy
        rw [show (toRec m0).version = m0.version from rfl, hv0]
        omega)
      hndrest
    unfold foldDel at hclear
    rw [show (m0 :: rest).map toRec = [toRec m0] ++ rest.map toRec from by simp,
      hclear]
    simp [toRec, hv0, hn0, stepDel]
  have hdb : ((m0 :: rest).map toRec).isEmpty = false := by simp
  simp only [Reset, hdb, Bool.false_eq_true, if_false, hfind, hcor]
  rw [hrun]
  simp only [CmdRes.mk.injEq]
  exact ⟨lastVersion_map_reify (m0 :: rest), hnewv, trivial, hfold, trivial⟩

theorem c10_reset_full_rollback_witness :
    Reset [⟨0, "-", true, true, false⟩, ⟨1, "a", true, true, false⟩]
        [⟨0, "-"⟩, ⟨1, "a"⟩] =
      ⟨1, 0, none, [⟨0, "-"⟩], [Op.down 1, Op.down 0]⟩ :=
  c10_reset_full_rollback ⟨0, "-", true, true, false⟩
    [⟨1, "a", true, true, false⟩] rfl rfl (by decide) (by decide)

end MongoMigrator
